import Mathlib

/-! KPGB client-side search: the query engine of `public/js/search.js` and the
widget search of `templates/widget.js`.

JavaScript strings are sequences of UTF-16 code units, modelled as `List Nat`.
Post records are objects shared by reference between the cached index and the
arrays returned by a search; a reference is modelled as the position of the
record in the index, and the index itself is the store of the records.
`String.prototype.toLowerCase` is a built-in of the host; it is a parameter
`toLowerCase` of every definition that calls it.
-/

namespace KPGB

/-- A JavaScript string: its UTF-16 code units. -/
abbrev JSString := List Nat

/-- A record of `search-index.json`; `_score` is the property that
`performSearch` writes on the record (absent on a freshly parsed record). -/
structure Post where
  title : JSString
  content : JSString
  tags : List JSString
  url : JSString
  date : JSString
  _score : Option Nat
deriving DecidableEq, Repr

/-- The code units matched by the regular expression class `\s` (ECMAScript
WhiteSpace and LineTerminator). -/
def isWhiteSpace (c : Nat) : Bool :=
  c == 0x09 || c == 0x0A || c == 0x0B || c == 0x0C || c == 0x0D || c == 0x20 ||
  c == 0xA0 || c == 0x1680 || (decide (0x2000 ≤ c) && decide (c ≤ 0x200A)) ||
  c == 0x2028 || c == 0x2029 || c == 0x202F || c == 0x205F || c == 0x3000 ||
  c == 0xFEFF

/-- The loop of `String.prototype.split` for the separator `/\s+/`. `cur` is the
piece read since the last separator. At a white-space unit the greedy `\s+`
matches the whole run of white space that starts there: the first unit of the run
closes the piece, and `inRun` tells that the unit before was white space, so that
the following units of the run belong to the same match. -/
def splitLoop : List Nat → List Nat → Bool → List (List Nat)
  | [], cur, _ => [cur]
  | c :: rest, cur, inRun =>
    if isWhiteSpace c then
      if inRun then splitLoop rest [] true else cur :: splitLoop rest [] true
    else
      splitLoop rest (cur ++ [c]) false

/-- The value of `s.split(/\s+/)`; the empty string gives `[""]`. -/
def split (s : JSString) : List JSString := splitLoop s [] false

/-- The value of `s.includes(w)`: `w` occurs in `s` as a contiguous run. -/
def includes (s w : JSString) : Bool := decide (w <:+: s)

/-- The value of `tags.join(sep)`. -/
def join (sep : JSString) : List JSString → JSString
  | [] => []
  | [t] => t
  | t :: u :: ts => t ++ sep ++ join sep (u :: ts)

/-- The template literal of `performSearch` and `searchPosts`, lowercased:
the title, a space, the content, a space, the tags joined by spaces. -/
def searchableText (toLowerCase : JSString → JSString) (post : Post) : JSString :=
  toLowerCase (post.title ++ [0x20] ++ post.content ++ [0x20] ++ join [0x20] post.tags)

/-- The tokens of a query in `performSearch`:
`query.toLowerCase().split(/\s+/).filter(w => w.length > 0)`. -/
def words (toLowerCase : JSString → JSString) (query : JSString) : List JSString :=
  (split (toLowerCase query)).filter (fun w => decide (w.length > 0))

/-- The callback of the filter: `words.every(word => searchableText.includes(word))`. -/
def matchesEvery (toLowerCase : JSString → JSString) (ws : List JSString) (post : Post) : Bool :=
  ws.all (fun word => includes (searchableText toLowerCase post) word)

/-- The value of `array.filter(pred)` on an array of records: the references (positions
in the store) of the records that pass, in the order of the array. -/
def filterRefs (store : List Post) (pred : Post → Bool) : List Nat :=
  (List.range store.length).filter fun i =>
    match store[i]? with
    | some post => pred post
    | none => false

/-- The body of `words.forEach` in the scoring loop, for one word. -/
def scoreWord (toLowerCase : JSString → JSString) (post : Post) (score : Nat)
    (word : JSString) : Nat :=
  let score1 := if includes (toLowerCase post.title) word then score + 10 else score
  let score2 := if includes (toLowerCase post.content) word then score1 + 1 else score1
  if post.tags.any (fun tag => includes (toLowerCase tag) word) then score2 + 5 else score2

/-- The value of `score` after `words.forEach`, starting from `0`. -/
def computeScore (toLowerCase : JSString → JSString) (ws : List JSString) (post : Post) : Nat :=
  ws.foldl (scoreWord toLowerCase post) 0

/-- The record `post` after `post._score = score`, `score` computed for the words `ws`. -/
def scored (toLowerCase : JSString → JSString) (ws : List JSString) (post : Post) : Post :=
  { post with _score := some (computeScore toLowerCase ws post) }

/-- The body of `results.forEach` for one reference: the assignment to `post._score`
writes the record in the store. -/
def scoreResult (toLowerCase : JSString → JSString) (ws : List JSString) (store : List Post)
    (ref : Nat) : List Post :=
  match store[ref]? with
  | some post => store.set ref (scored toLowerCase ws post)
  | none => store

/-- The store after `results.forEach(post => ...)`. -/
def scoreResults (toLowerCase : JSString → JSString) (ws : List JSString) (results : List Nat)
    (store : List Post) : List Post :=
  results.foldl (scoreResult toLowerCase ws) store

/-- The value of `post._score` read through a reference. A record without the property
reads as `0`; the records that are sorted have all been scored. -/
def scoreOf (store : List Post) (ref : Nat) : Nat :=
  match store[ref]? with
  | some post => post._score.getD 0
  | none => 0

/-- The comparator of the sort: `(a, b) => b._score - a._score`. -/
def compareFn (store : List Post) (a b : Nat) : Int :=
  (scoreOf store b : Int) - (scoreOf store a : Int)

/-- One insertion of the stable sort: `a`, which stood before every element of the list,
stays before `b` unless the comparator is positive. -/
def insertSorted {α : Type} (cmp : α → α → Int) (a : α) : List α → List α
  | [] => [a]
  | b :: l => if cmp a b ≤ 0 then a :: b :: l else b :: insertSorted cmp a l

/-- The value of `array.sort(cmp)`. `Array.prototype.sort` is stable (ECMAScript 2019), so
for a comparator that is a difference of keys the outcome does not depend on the engine;
it is computed here by insertion. -/
def sort {α : Type} (cmp : α → α → Int) : List α → List α
  | [] => []
  | a :: l => insertSorted cmp a (sort cmp l)

/-- The function `loadSearchIndex`: `fetched` is the outcome of `fetch` and
`response.json()`, `none` when either is rejected; the rejection is caught and
leaves `searchIndex` as it was. -/
def loadSearchIndex (fetched : Option (List Post)) (searchIndex : Option (List Post)) :
    Option (List Post) :=
  match fetched with
  | some index => some index
  | none => searchIndex

/-- The function `performSearch`. `searchIndex` is the module variable (`none` is
`null`); the result is the index after the call and the returned array of references.
An empty array is truthy, the empty string is falsy. -/
def performSearch (toLowerCase : JSString → JSString) (searchIndex : Option (List Post))
    (query : JSString) : Option (List Post) × List Nat :=
  match searchIndex with
  | none => (none, [])
  | some index =>
    if query = [] then (some index, [])
    else
      let ws := words toLowerCase query
      let results := filterRefs index (matchesEvery toLowerCase ws)
      let index' := scoreResults toLowerCase ws results index
      let sorted := sort (compareFn index') results
      (some index', sorted.take 20)

/-- The function `searchPosts` of the widget; the returned array holds references
into `posts`. -/
def searchPosts (toLowerCase : JSString → JSString) (posts : List Post) (query : JSString) :
    List Nat :=
  let ws := split (toLowerCase query)
  (filterRefs posts (matchesEvery toLowerCase ws)).take 10

/-- Lowercasing of the letters `A` to `Z`, every other code unit unchanged: what
`toLowerCase` does on strings of ASCII characters. -/
def asciiLower (s : JSString) : JSString :=
  s.map fun c => if 0x41 ≤ c ∧ c ≤ 0x5A then c + 0x20 else c

/-- The UTF-16 code units of a string literal. -/
def utf16 (s : String) : JSString :=
  s.toList.flatMap fun c =>
    if c.toNat < 0x10000 then [c.toNat]
    else [0xD800 + (c.toNat - 0x10000) / 0x400, 0xDC00 + (c.toNat - 0x10000) % 0x400]

/-- The value of `results` in `performSearch` after the sort: the references of all the
candidates, ranked, before the truncation. -/
def rankedCandidates (toLowerCase : JSString → JSString) (index : List Post)
    (query : JSString) : List Nat :=
  let ws := words toLowerCase query
  let results := filterRefs index (matchesEvery toLowerCase ws)
  sort (compareFn (scoreResults toLowerCase ws results index)) results

/-- The normalised query in the words of the specification: lowercased, split at white
space, empty tokens dropped, duplicates kept. -/
def normalise (toLowerCase : JSString → JSString) (query : JSString) : List JSString :=
  ((toLowerCase query).splitOnP isWhiteSpace).filter (fun w => decide (w ≠ []))

/-- The points one query token earns on a post, in the words of the specification:
10 if it is a substring of the lowercased title, plus 1 if it is a substring of the
lowercased content, plus 5 if it is a substring of at least one lowercased tag. -/
def tokenBonus (toLowerCase : JSString → JSString) (post : Post) (word : JSString) : Nat :=
  (if word <:+: toLowerCase post.title then 10 else 0) +
  (if word <:+: toLowerCase post.content then 1 else 0) +
  (if ∃ tag ∈ post.tags, word <:+: toLowerCase tag then 5 else 0)

/-- The score of the specification: the sum of the bonuses over every token occurrence. -/
def specScore (toLowerCase : JSString → JSString) (ws : List JSString) (post : Post) : Nat :=
  (ws.map (tokenBonus toLowerCase post)).sum

/-- What the proofs use of `String.prototype.toLowerCase`: the empty string stays empty,
and a space is mapped to a space and separates what is lowercased before it from what is
lowercased after it (case mapping looks at no context across a space). -/
structure LowerCaseLaws (toLowerCase : JSString → JSString) : Prop where
  empty : toLowerCase [] = []
  space : ∀ a b, toLowerCase (a ++ 0x20 :: b) = toLowerCase a ++ 0x20 :: toLowerCase b

/-- The post of the score example of the specification. -/
def rustGuide : Post :=
  { title := utf16 "Rust Guide", content := utf16 "intro to rust ownership",
    tags := [utf16 "rust", utf16 "systems"], url := utf16 "posts/rust-guide.html",
    date := utf16 "2024-01-01", _score := none }

/-- Three posts that match "rust": the first and the third in the content only (score 1
each), the second in the title (score 10). -/
def tiePosts : List Post :=
  [ { title := utf16 "Ownership", content := utf16 "rust basics", tags := [],
      url := utf16 "posts/a.html", date := utf16 "2024-01-01", _score := none },
    { title := utf16 "Rust Guide", content := utf16 "an overview", tags := [],
      url := utf16 "posts/b.html", date := utf16 "2024-01-02", _score := none },
    { title := utf16 "Borrowing", content := utf16 "more rust", tags := [],
      url := utf16 "posts/c.html", date := utf16 "2024-01-03", _score := none } ]

/-- The post number `n` of the truncation example: "rust" is in the content only for
`n < 15` (score 1) and in the title only from 15 on (score 10). -/
def matchingPost (n : Nat) : Post :=
  if n < 15 then
    { title := utf16 "Notes", content := utf16 "learning rust", tags := [],
      url := utf16 "posts/" ++ [0x30 + n / 10, 0x30 + n % 10], date := utf16 "2024-01-01",
      _score := none }
  else
    { title := utf16 "Rust", content := [], tags := [],
      url := utf16 "posts/" ++ [0x30 + n / 10, 0x30 + n % 10], date := utf16 "2024-01-01",
      _score := none }

/-- An index of 30 posts that all match the query "rust". -/
def thirtyPosts : List Post := (List.range 30).map matchingPost

/-! ## The store after the scoring loop -/

section Lemmas

variable (L : JSString → JSString)

theorem computeScore_scored (ws ws' : List JSString) (p : Post) :
    computeScore L ws (scored L ws' p) = computeScore L ws p := rfl

theorem scored_scored (ws : List JSString) (p : Post) :
    scored L ws (scored L ws p) = scored L ws p := rfl

theorem scoreResult_getElem? (ws : List JSString) (st : List Post) (r k : Nat) :
    (scoreResult L ws st r)[k]? = if k = r then st[k]?.map (scored L ws) else st[k]? := by
  unfold scoreResult
  cases h : st[r]? with
  | none =>
    by_cases hk : k = r
    · subst hk; simp [h]
    · simp [hk]
  | some p =>
    by_cases hk : k = r
    · subst hk
      have hlt : k < st.length := by
        rcases List.getElem?_eq_some_iff.mp h with ⟨hlt, _⟩
        exact hlt
      simp [h, List.getElem?_set, hlt]
    · have hk' : r ≠ k := fun e => hk e.symm
      simp [hk, List.getElem?_set, hk']

theorem scoreResults_getElem? (ws : List JSString) (rs : List Nat) (st : List Post) (k : Nat) :
    (scoreResults L ws rs st)[k]? = if k ∈ rs then st[k]?.map (scored L ws) else st[k]? := by
  induction rs generalizing st with
  | nil => simp [scoreResults]
  | cons r rs ih =>
    have hstep : scoreResults L ws (r :: rs) st = scoreResults L ws rs (scoreResult L ws st r) := rfl
    rw [hstep, ih, scoreResult_getElem?]
    by_cases hk : k = r
    · subst hk
      by_cases hm : k ∈ rs
      · cases h : st[k]? <;> simp [hm, h, scored_scored]
      · simp [hm]
    · by_cases hm : k ∈ rs <;> simp [hm, hk]

theorem scoreResults_length (ws : List JSString) (rs : List Nat) (st : List Post) :
    (scoreResults L ws rs st).length = st.length := by
  induction rs generalizing st with
  | nil => rfl
  | cons r rs ih =>
    have hstep : scoreResults L ws (r :: rs) st = scoreResults L ws rs (scoreResult L ws st r) := rfl
    rw [hstep, ih]
    unfold scoreResult
    cases st[r]? <;> simp

theorem mem_filterRefs (st : List Post) (pred : Post → Bool) (i : Nat) :
    i ∈ filterRefs st pred ↔ ∃ p, st[i]? = some p ∧ pred p = true := by
  unfold filterRefs
  rw [List.mem_filter, List.mem_range]
  constructor
  · rintro ⟨hlt, h⟩
    rw [List.getElem?_eq_getElem hlt] at h
    exact ⟨st[i], List.getElem?_eq_getElem hlt, h⟩
  · rintro ⟨p, hp, hpred⟩
    rcases List.getElem?_eq_some_iff.mp hp with ⟨hlt, _⟩
    refine ⟨hlt, ?_⟩
    rw [hp]
    exact hpred

theorem filterRefs_increasing (st : List Post) (pred : Post → Bool) :
    (filterRefs st pred).Pairwise (· < ·) :=
  (List.pairwise_lt_range st.length).sublist (List.filter_sublist _)

theorem filterRefs_append_one (st : List Post) (p : Post) (pred : Post → Bool) :
    filterRefs (st ++ [p]) pred = filterRefs st pred ++ (if pred p then [st.length] else []) := by
  unfold filterRefs
  rw [List.length_append, List.length_singleton, List.range_succ, List.filter_append]
  congr 1
  · apply List.filter_congr
    intro i hi
    rw [List.getElem?_append_left (List.mem_range.mp hi)]
  · simp [List.filter_cons]

theorem filterRefs_length (st : List Post) (pred : Post → Bool) :
    (filterRefs st pred).length = st.countP pred := by
  induction st using List.reverseRecOn with
  | nil => rfl
  | append_singleton st p ih =>
    rw [filterRefs_append_one, List.length_append, ih, List.countP_append]
    by_cases h : pred p = true <;> simp [h]

end Lemmas

/-! ## The stable sort -/

section StableSort

variable {α : Type} (cmp : α → α → Int) (key : α → Nat)

theorem insertSorted_perm (a : α) (l : List α) : (insertSorted cmp a l).Perm (a :: l) := by
  induction l with
  | nil => exact List.Perm.refl _
  | cons b l ih =>
    unfold insertSorted
    split
    · exact List.Perm.refl _
    · exact (List.Perm.cons b ih).trans (List.Perm.swap a b l)

theorem sort_perm (l : List α) : (sort cmp l).Perm l := by
  induction l with
  | nil => exact List.Perm.refl _
  | cons a l ih => exact (insertSorted_perm cmp a (sort cmp l)).trans (List.Perm.cons a ih)

theorem mem_sort (l : List α) (a : α) : a ∈ sort cmp l ↔ a ∈ l :=
  (sort_perm cmp l).mem_iff

theorem length_sort (l : List α) : (sort cmp l).length = l.length :=
  (sort_perm cmp l).length_eq

theorem insertSorted_descending (hc : ∀ a b, cmp a b ≤ 0 ↔ key b ≤ key a) (a : α) (l : List α)
    (hl : l.Pairwise (fun x y => key y ≤ key x)) :
    (insertSorted cmp a l).Pairwise (fun x y => key y ≤ key x) := by
  induction l with
  | nil => simp [insertSorted]
  | cons b l ih =>
    rw [List.pairwise_cons] at hl
    unfold insertSorted
    split
    · rename_i h
      have hba : key b ≤ key a := (hc a b).mp h
      refine List.Pairwise.cons ?_ (List.Pairwise.cons hl.1 hl.2)
      intro y hy
      rcases List.mem_cons.mp hy with rfl | hy
      · exact hba
      · exact le_trans (hl.1 y hy) hba
    · rename_i h
      have hab : key a ≤ key b := by
        have : ¬ key b ≤ key a := fun h' => h ((hc a b).mpr h')
        omega
      refine List.Pairwise.cons ?_ (ih hl.2)
      intro y hy
      rcases List.mem_cons.mp ((insertSorted_perm cmp a l).mem_iff.mp hy) with rfl | hy
      · exact hab
      · exact hl.1 y hy

theorem sort_descending (hc : ∀ a b, cmp a b ≤ 0 ↔ key b ≤ key a) (l : List α) :
    (sort cmp l).Pairwise (fun x y => key y ≤ key x) := by
  induction l with
  | nil => exact List.Pairwise.nil
  | cons a l ih => exact insertSorted_descending cmp key hc a _ ih

theorem insertSorted_filter (hc : ∀ a b, cmp a b ≤ 0 ↔ key b ≤ key a) (s : Nat) (a : α)
    (l : List α) :
    (insertSorted cmp a l).filter (fun x => decide (key x = s)) =
      (a :: l).filter (fun x => decide (key x = s)) := by
  induction l with
  | nil => rfl
  | cons b l ih =>
    unfold insertSorted
    split
    · rfl
    · rename_i h
      have hne : key a ≠ key b := by
        intro e
        exact h ((hc a b).mpr (le_of_eq e.symm))
      rw [List.filter_cons, ih]
      by_cases ha : key a = s
      · have hb : key b ≠ s := fun e => hne (ha.trans e.symm)
        simp [List.filter_cons, ha, hb]
      · simp [List.filter_cons, ha]

theorem sort_filter (hc : ∀ a b, cmp a b ≤ 0 ↔ key b ≤ key a) (s : Nat) (l : List α) :
    (sort cmp l).filter (fun x => decide (key x = s)) = l.filter (fun x => decide (key x = s)) := by
  induction l with
  | nil => rfl
  | cons a l ih =>
    have h : sort cmp (a :: l) = insertSorted cmp a (sort cmp l) := rfl
    rw [h, insertSorted_filter cmp key hc, List.filter_cons, ih, List.filter_cons]

end StableSort

theorem compareFn_le (st : List Post) (a b : Nat) :
    compareFn st a b ≤ 0 ↔ scoreOf st b ≤ scoreOf st a := by
  unfold compareFn
  omega

/-! ## The search as a whole -/

section Search

variable (L : JSString → JSString)

theorem includes_iff (s w : JSString) : includes s w = true ↔ w <:+: s := by
  simp [includes]

theorem matchesEvery_iff (ws : List JSString) (p : Post) :
    matchesEvery L ws p = true ↔ ∀ w ∈ ws, w <:+: searchableText L p := by
  simp [matchesEvery, List.all_eq_true, includes_iff]

theorem scoreWord_eq (p : Post) (acc : Nat) (w : JSString) :
    scoreWord L p acc w = acc + tokenBonus L p w := by
  have hany : (p.tags.any fun tag => includes (L tag) w) = true ↔ ∃ tag ∈ p.tags, w <:+: L tag := by
    simp [List.any_eq_true, includes_iff]
  unfold scoreWord tokenBonus
  by_cases h1 : w <:+: L p.title <;> by_cases h2 : w <:+: L p.content <;>
    by_cases h3 : ∃ tag ∈ p.tags, w <:+: L tag <;>
    simp only [includes_iff, hany, h1, h2, h3, if_true, if_false]
  all_goals omega

theorem foldl_scoreWord (p : Post) (ws : List JSString) (acc : Nat) :
    ws.foldl (scoreWord L p) acc = acc + (ws.map (tokenBonus L p)).sum := by
  induction ws generalizing acc with
  | nil => simp
  | cons w ws ih => rw [List.foldl_cons, ih, scoreWord_eq]; simp; omega

theorem computeScore_eq (ws : List JSString) (p : Post) :
    computeScore L ws p = specScore L ws p := by
  unfold computeScore specScore
  rw [foldl_scoreWord]; simp

theorem performSearch_eq (index : List Post) (q : JSString) (hq : q ≠ []) :
    performSearch L (some index) q =
      (some (scoreResults L (words L q) (filterRefs index (matchesEvery L (words L q))) index),
        (rankedCandidates L index q).take 20) := by
  simp [performSearch, rankedCandidates, hq]

theorem performSearch_empty (index : List Post) : performSearch L (some index) [] = (some index, []) := by
  simp [performSearch]

theorem mem_rankedCandidates (index : List Post) (q : JSString) (i : Nat) :
    i ∈ rankedCandidates L index q ↔ ∃ p, index[i]? = some p ∧ matchesEvery L (words L q) p = true := by
  unfold rankedCandidates
  simp only [mem_sort]
  exact mem_filterRefs _ _ _

theorem mem_performSearch (si : Option (List Post)) (q : JSString) (i : Nat)
    (h : i ∈ (performSearch L si q).2) :
    ∃ index p, si = some index ∧ q ≠ [] ∧ i ∈ rankedCandidates L index q ∧ index[i]? = some p ∧
      matchesEvery L (words L q) p = true ∧
      (performSearch L si q).1 =
        some (scoreResults L (words L q) (filterRefs index (matchesEvery L (words L q))) index) ∧
      (scoreResults L (words L q) (filterRefs index (matchesEvery L (words L q))) index)[i]? =
        some (scored L (words L q) p) := by
  cases si with
  | none => simp [performSearch] at h
  | some index =>
    by_cases hq : q = []
    · subst hq; simp [performSearch] at h
    · rw [performSearch_eq L index q hq] at h ⊢
      have hr : i ∈ rankedCandidates L index q := List.mem_of_mem_take h
      obtain ⟨p, hp, hm⟩ := (mem_rankedCandidates L index q i).mp hr
      refine ⟨index, p, rfl, hq, hr, hp, hm, rfl, ?_⟩
      rw [scoreResults_getElem?]
      have hi : i ∈ filterRefs index (matchesEvery L (words L q)) :=
        (mem_filterRefs _ _ _).mpr ⟨p, hp, hm⟩
      simp [hi, hp]

theorem words_empty (hL : L [] = []) : words L [] = [] := by
  simp [words, hL, split, splitLoop]

theorem rankedCandidates_length (index : List Post) (q : JSString) :
    (rankedCandidates L index q).length = index.countP (matchesEvery L (words L q)) := by
  unfold rankedCandidates
  simp only [length_sort]
  exact filterRefs_length _ _

theorem rankedCandidates_descending (index : List Post) (q : JSString) :
    (rankedCandidates L index q).Pairwise (fun i j =>
      scoreOf (scoreResults L (words L q) (filterRefs index (matchesEvery L (words L q))) index) j ≤
      scoreOf (scoreResults L (words L q) (filterRefs index (matchesEvery L (words L q))) index) i) :=
  sort_descending _ _ (compareFn_le _) _

theorem rankedCandidates_stable (index : List Post) (q : JSString) (i j : Nat)
    (hs : List.Sublist [i, j] (rankedCandidates L index q))
    (he : scoreOf (scoreResults L (words L q) (filterRefs index (matchesEvery L (words L q))) index) i =
      scoreOf (scoreResults L (words L q) (filterRefs index (matchesEvery L (words L q))) index) j) :
    i < j := by
  have h1 := hs.filter (fun x => decide
    (scoreOf (scoreResults L (words L q) (filterRefs index (matchesEvery L (words L q))) index) x =
      scoreOf (scoreResults L (words L q) (filterRefs index (matchesEvery L (words L q))) index) j))
  unfold rankedCandidates at h1
  simp only [sort_filter _ _ (compareFn_le _)] at h1
  have h2 : List.Sublist [i, j] (filterRefs index (matchesEvery L (words L q))) := by
    refine List.Sublist.trans ?_ (h1.trans (List.filter_sublist _))
    simp [List.filter_cons, he]
  have h3 := (filterRefs_increasing index (matchesEvery L (words L q))).sublist h2
  simpa using h3

theorem includes_empty (s : JSString) : includes s [] = true := by
  simp [includes]

theorem matchesEvery_filter (ws : List JSString) (p : Post) :
    matchesEvery L (ws.filter fun w => decide (w.length > 0)) p = matchesEvery L ws p := by
  unfold matchesEvery
  induction ws with
  | nil => rfl
  | cons w ws ih =>
    cases w with
    | nil => simp [List.filter_cons, includes_empty, ih]
    | cons c w => simp [List.filter_cons, ih]

theorem rankedCandidates_perm (index : List Post) (q : JSString) :
    (rankedCandidates L index q).Perm (filterRefs index (matchesEvery L (words L q))) :=
  sort_perm _ _

end Search

/-! ## The tokens of a query -/

section Tokens

theorem splitLoop_nil (cur : JSString) (r : Bool) : splitLoop [] cur r = [cur] := by
  rw [splitLoop]

theorem splitLoop_cons (c : Nat) (rest cur : JSString) (r : Bool) :
    splitLoop (c :: rest) cur r =
      if isWhiteSpace c then
        if r then splitLoop rest [] true else cur :: splitLoop rest [] true
      else splitLoop rest (cur ++ [c]) false := by
  rw [splitLoop]

theorem splitLoop_inRun (s : JSString) :
    (splitLoop s [] true).filter (fun w => decide (w.length > 0)) =
      (splitLoop s [] false).filter (fun w => decide (w.length > 0)) := by
  cases s with
  | nil => rfl
  | cons c rest =>
    rw [splitLoop_cons, splitLoop_cons]
    cases hc : isWhiteSpace c <;> simp

theorem splitLoop_append_space (b : JSString) (a cur : JSString) (r : Bool)
    (hr : r = true → cur = []) :
    (splitLoop (a ++ 0x20 :: b) cur r).filter (fun w => decide (w.length > 0)) =
      (splitLoop a cur r).filter (fun w => decide (w.length > 0)) ++
        (splitLoop b [] false).filter (fun w => decide (w.length > 0)) := by
  induction a generalizing cur r with
  | nil =>
    have hsp : isWhiteSpace 0x20 = true := by decide
    rw [List.nil_append, splitLoop_cons, splitLoop_nil]
    cases r with
    | true =>
      have hcur := hr rfl
      subst hcur
      simp only [hsp, if_true]
      rw [splitLoop_inRun]
      rfl
    | false =>
      simp only [hsp, if_true, Bool.false_eq_true, if_false]
      rw [List.filter_cons, List.filter_cons, splitLoop_inRun]
      split <;> simp
  | cons c a ih =>
    rw [List.cons_append, splitLoop_cons, splitLoop_cons]
    cases hc : isWhiteSpace c with
    | true =>
      simp only [if_true]
      cases r with
      | true =>
        simp only [if_true]
        exact ih [] true (fun _ => rfl)
      | false =>
        simp only [Bool.false_eq_true, if_false]
        rw [List.filter_cons, List.filter_cons, ih [] true (fun _ => rfl)]
        split <;> simp
    | false =>
      simp only [Bool.false_eq_true, if_false]
      exact ih (cur ++ [c]) false (fun h => absurd h (by decide))

theorem splitLoop_no_whiteSpace (s cur : JSString) (r : Bool)
    (hcur : ∀ c ∈ cur, isWhiteSpace c = false) :
    ∀ w ∈ splitLoop s cur r, ∀ c ∈ w, isWhiteSpace c = false := by
  induction s generalizing cur r with
  | nil =>
    intro w hw
    rw [splitLoop_nil, List.mem_singleton] at hw
    subst hw
    exact hcur
  | cons c s ih =>
    intro w hw
    rw [splitLoop_cons] at hw
    cases hc : isWhiteSpace c with
    | true =>
      simp only [hc, if_true] at hw
      cases r with
      | true =>
        simp only [if_true] at hw
        exact ih [] true (fun _ h => absurd h (List.not_mem_nil _)) w hw
      | false =>
        simp only [Bool.false_eq_true, if_false] at hw
        rcases List.mem_cons.mp hw with rfl | hw
        · exact hcur
        · exact ih [] true (fun _ h => absurd h (List.not_mem_nil _)) w hw
    | false =>
      simp only [hc, Bool.false_eq_true, if_false] at hw
      refine ih (cur ++ [c]) false ?_ w hw
      intro d hd
      rcases List.mem_append.mp hd with hd | hd
      · exact hcur d hd
      · rw [List.mem_singleton] at hd
        subst hd
        exact hc

theorem splitLoop_eq_splitOnP (s cur : JSString) (r : Bool) (hr : r = true → cur = []) :
    (splitLoop s cur r).filter (fun w => decide (w.length > 0)) =
      ((s.splitOnP isWhiteSpace).modifyHead (cur ++ ·)).filter (fun w => decide (w.length > 0)) := by
  induction s generalizing cur r with
  | nil => simp [splitLoop_nil, List.splitOnP_nil]
  | cons c s ih =>
    rw [splitLoop_cons, List.splitOnP_cons]
    cases hc : isWhiteSpace c with
    | true =>
      have h0 := ih [] true (fun _ => rfl)
      have hid : List.modifyHead (fun x => ([] : JSString) ++ x) (List.splitOnP isWhiteSpace s) =
          List.splitOnP isWhiteSpace s := by
        cases List.splitOnP isWhiteSpace s <;> simp
      rw [hid] at h0
      cases r with
      | true =>
        have hcur := hr rfl
        subst hcur
        simp [h0]
      | false =>
        simp [List.filter_cons, h0]
    | false =>
      have h0 := ih (cur ++ [c]) false (fun h => absurd h (by decide))
      simp only [Bool.false_eq_true, if_false]
      rw [h0]
      cases List.splitOnP isWhiteSpace s <;> simp

theorem words_eq_normalise (L : JSString → JSString) (q : JSString) : words L q = normalise L q := by
  unfold words normalise split
  rw [splitLoop_eq_splitOnP (L q) [] false (fun h => absurd h (by decide))]
  have hid : List.modifyHead (fun x => ([] : JSString) ++ x) (List.splitOnP isWhiteSpace (L q)) =
      List.splitOnP isWhiteSpace (L q) := by
    cases List.splitOnP isWhiteSpace (L q) <;> simp
  rw [hid]
  apply List.filter_congr
  intro w _
  cases w <;> simp
variable (L : JSString → JSString)

theorem words_append_space (hL : LowerCaseLaws L) (q t : JSString) :
    words L (q ++ 0x20 :: t) = words L q ++ words L t := by
  unfold words split
  rw [hL.space]
  exact splitLoop_append_space (L t) (L q) [] false (fun h => absurd h (by decide))

theorem words_token (q w : JSString) (hw : w ∈ words L q) : w ≠ [] ∧ 0x20 ∉ w := by
  unfold words at hw
  rw [List.mem_filter] at hw
  obtain ⟨hmem, hlen⟩ := hw
  constructor
  · intro e
    subst e
    simp at hlen
  · intro h32
    have := splitLoop_no_whiteSpace (L q) [] false (fun _ h => absurd h (List.not_mem_nil _)) w
      hmem 0x20 h32
    exact absurd this (by decide)

end Tokens

/-! ## A token lies in one field -/

section Fields

theorem prefix_before_space (w a b : JSString) (hw : 0x20 ∉ w) (h : w <+: a ++ 0x20 :: b) :
    w <+: a := by
  induction a generalizing w with
  | nil =>
    rw [List.nil_append, List.prefix_cons_iff] at h
    rcases h with rfl | ⟨t, rfl, -⟩
    · exact List.nil_prefix
    · exact absurd (List.mem_cons_self _ _) hw
  | cons c a ih =>
    rw [List.cons_append, List.prefix_cons_iff] at h
    rcases h with rfl | ⟨t, rfl, ht⟩
    · exact List.nil_prefix
    · have ht' := ih t (fun m => hw (List.mem_cons_of_mem _ m)) ht
      exact List.prefix_cons_iff.mpr (Or.inr ⟨t, rfl, ht'⟩)

theorem infix_around_space (w a b : JSString) (hw : 0x20 ∉ w) (h : w <:+: a ++ 0x20 :: b) :
    w <:+: a ∨ w <:+: b := by
  induction a with
  | nil =>
    rw [List.nil_append, List.infix_cons_iff] at h
    rcases h with h | h
    · exact Or.inl (prefix_before_space w [] b hw h).isInfix
    · exact Or.inr h
  | cons c a ih =>
    rw [List.cons_append, List.infix_cons_iff] at h
    rcases h with h | h
    · exact Or.inl (prefix_before_space w (c :: a) b hw h).isInfix
    · rcases ih h with h | h
      · exact Or.inl (List.infix_cons h)
      · exact Or.inr h

variable (L : JSString → JSString)

theorem infix_join (hL : LowerCaseLaws L) (w : JSString) (hne : w ≠ []) (hw : 0x20 ∉ w)
    (tags : List JSString) (h : w <:+: L (join [0x20] tags)) : ∃ tag ∈ tags, w <:+: L tag := by
  induction tags with
  | nil =>
    rw [join, hL.empty] at h
    exact absurd (List.eq_nil_of_infix_nil h) hne
  | cons t ts ih =>
    cases ts with
    | nil => exact ⟨t, List.mem_singleton.mpr rfl, h⟩
    | cons u ts =>
      have hj : join [0x20] (t :: u :: ts) = t ++ 0x20 :: join [0x20] (u :: ts) := by
        simp [join]
      rw [hj, hL.space] at h
      rcases infix_around_space w _ _ hw h with h | h
      · exact ⟨t, List.mem_cons_self _ _, h⟩
      · obtain ⟨tag, hm, ht⟩ := ih h
        exact ⟨tag, List.mem_cons_of_mem _ hm, ht⟩

theorem infix_searchableText (hL : LowerCaseLaws L) (w : JSString) (hne : w ≠ [])
    (hw : 0x20 ∉ w) (p : Post) (h : w <:+: searchableText L p) :
    w <:+: L p.title ∨ w <:+: L p.content ∨ ∃ tag ∈ p.tags, w <:+: L tag := by
  have ht : p.title ++ [0x20] ++ p.content ++ [0x20] ++ join [0x20] p.tags =
      p.title ++ 0x20 :: (p.content ++ 0x20 :: join [0x20] p.tags) := by simp
  unfold searchableText at h
  rw [ht, hL.space, hL.space] at h
  rcases infix_around_space w _ _ hw h with h | h
  · exact Or.inl h
  · rcases infix_around_space w _ _ hw h with h | h
    · exact Or.inr (Or.inl h)
    · exact Or.inr (Or.inr (infix_join L hL w hne hw p.tags h))

theorem tokenBonus_le (p : Post) (w : JSString) : tokenBonus L p w ≤ 16 := by
  unfold tokenBonus
  split_ifs <;> omega

theorem tokenBonus_pos (p : Post) (w : JSString)
    (h : w <:+: L p.title ∨ w <:+: L p.content ∨ ∃ tag ∈ p.tags, w <:+: L tag) :
    1 ≤ tokenBonus L p w := by
  unfold tokenBonus
  rcases h with h | h | h
  · rw [if_pos h]; omega
  · rw [if_pos h]; omega
  · rw [if_pos h]; omega

theorem specScore_bounds (p : Post) (ws : List JSString)
    (h : ∀ w ∈ ws, 1 ≤ tokenBonus L p w) :
    ws.length ≤ specScore L ws p ∧ specScore L ws p ≤ 16 * ws.length := by
  unfold specScore
  induction ws with
  | nil => simp
  | cons w ws ih =>
    have h1 := h w (List.mem_cons_self _ _)
    have h2 := tokenBonus_le L p w
    have h3 := ih (fun v hv => h v (List.mem_cons_of_mem _ hv))
    simp only [List.map_cons, List.sum_cons, List.length_cons]
    omega

theorem asciiLower_laws : LowerCaseLaws asciiLower :=
  ⟨rfl, fun a b => by simp [asciiLower]⟩

end Fields

/-! ## The claims -/

/-- C1: every post returned by `performSearch` carries, in the index as the call leaves it,
a `_score` equal to the sum, over every token occurrence of the normalised query (lowercased,
split at white space, empty tokens dropped, duplicates kept), of 10 for the title, 1 for the
content and 5 for the tags. -/
theorem performSearch_score_is_specScore (L : JSString → JSString) (si : Option (List Post))
    (q : JSString) (i : Nat) (h : i ∈ (performSearch L si q).2) :
    ∃ index' post, (performSearch L si q).1 = some index' ∧ index'[i]? = some post ∧
      post._score = some (specScore L (normalise L q) post) := by
  obtain ⟨index, p, -, -, -, -, -, h1, h2⟩ := mem_performSearch L si q i h
  refine ⟨_, _, h1, h2, ?_⟩
  show some (computeScore L (words L q) p) = some (specScore L (normalise L q) (scored L (words L q) p))
  rw [computeScore_eq, words_eq_normalise]
  rfl

/-- C1, the example of the specification: the post "Rust Guide" is returned for the query
"rust" with score 16 = 10 + 1 + 5, and for the query "rust rust" with score 32. -/
theorem performSearch_score_is_specScore_witness :
    (0 ∈ (performSearch asciiLower (some [rustGuide]) (utf16 "rust")).2 ∧
      ∃ index' post, (performSearch asciiLower (some [rustGuide]) (utf16 "rust")).1 = some index' ∧
        index'[0]? = some post ∧
        post._score = some (specScore asciiLower (normalise asciiLower (utf16 "rust")) post)) ∧
    specScore asciiLower (normalise asciiLower (utf16 "rust")) rustGuide = 16 ∧
    normalise asciiLower (utf16 "rust rust") = [utf16 "rust", utf16 "rust"] ∧
    performSearch asciiLower (some [rustGuide]) (utf16 "rust") =
      (some [{ rustGuide with _score := some 16 }], [0]) ∧
    performSearch asciiLower (some [rustGuide]) (utf16 "rust rust") =
      (some [{ rustGuide with _score := some 32 }], [0]) :=
  ⟨⟨by decide, performSearch_score_is_specScore asciiLower (some [rustGuide]) (utf16 "rust") 0
      (by decide)⟩, by decide, by decide, by decide, by decide⟩

/-- C2: for a query with at least one token, every reference returned by `performSearch`
points to a post of the index in which every query token is a substring of the lowercased
text title, space, content, space, tags joined by spaces; conversely, when at most 20
posts of the index pass that test, every one of them is returned. -/
theorem performSearch_returns_candidates (L : JSString → JSString) (hL : L [] = [])
    (index : List Post) (q : JSString) (hq : words L q ≠ []) :
    (∀ i ∈ (performSearch L (some index) q).2,
      ∃ p, index[i]? = some p ∧ ∀ w ∈ words L q,
        w <:+: L (p.title ++ [0x20] ++ p.content ++ [0x20] ++ join [0x20] p.tags)) ∧
    (index.countP (matchesEvery L (words L q)) ≤ 20 →
      ∀ i p, index[i]? = some p →
        (∀ w ∈ words L q,
          w <:+: L (p.title ++ [0x20] ++ p.content ++ [0x20] ++ join [0x20] p.tags)) →
        i ∈ (performSearch L (some index) q).2) := by
  have hne : q ≠ [] := by
    intro e
    apply hq
    rw [e]
    exact words_empty L hL
  constructor
  · intro i hi
    obtain ⟨index0, p, h0, -, -, hp, hm, -, -⟩ := mem_performSearch L (some index) q i hi
    cases h0
    exact ⟨p, hp, (matchesEvery_iff L _ p).mp hm⟩
  · intro hcount i p hp hall
    rw [performSearch_eq L index q hne]
    have hlen : (rankedCandidates L index q).length ≤ 20 := by
      rw [rankedCandidates_length]; exact hcount
    show i ∈ (rankedCandidates L index q).take 20
    rw [List.take_of_length_le hlen]
    exact (mem_rankedCandidates L index q i).mpr ⟨p, hp, (matchesEvery_iff L _ p).mpr hall⟩

/-- C2 on the post "Rust Guide" and the query "rust gui": both tokens occur in the text,
"gui" inside the word "guide", and the post is returned. -/
theorem performSearch_returns_candidates_witness :
    words asciiLower (utf16 "rust gui") ≠ [] ∧
    (performSearch asciiLower (some [rustGuide]) (utf16 "rust gui")).2 = [0] ∧
    ((∀ i ∈ (performSearch asciiLower (some [rustGuide]) (utf16 "rust gui")).2,
      ∃ p, [rustGuide][i]? = some p ∧ ∀ w ∈ words asciiLower (utf16 "rust gui"),
        w <:+: asciiLower (p.title ++ [0x20] ++ p.content ++ [0x20] ++ join [0x20] p.tags)) ∧
    ([rustGuide].countP (matchesEvery asciiLower (words asciiLower (utf16 "rust gui"))) ≤ 20 →
      ∀ i p, [rustGuide][i]? = some p →
        (∀ w ∈ words asciiLower (utf16 "rust gui"),
          w <:+: asciiLower (p.title ++ [0x20] ++ p.content ++ [0x20] ++ join [0x20] p.tags)) →
        i ∈ (performSearch asciiLower (some [rustGuide]) (utf16 "rust gui")).2)) :=
  ⟨by decide, by decide,
    performSearch_returns_candidates asciiLower rfl [rustGuide] (utf16 "rust gui") (by decide)⟩

/-- C3: the references returned by `performSearch` are in descending order of the score
their posts carry after the call, and two returned posts with equal score appear in the
order of their positions in the index. -/
theorem performSearch_descending_stable (L : JSString → JSString) (index : List Post)
    (q : JSString) :
    ∃ index', (performSearch L (some index) q).1 = some index' ∧
      (∀ i ∈ (performSearch L (some index) q).2,
        ∃ post : Post, index'[i]? = some post ∧ post._score = some (scoreOf index' i)) ∧
      (performSearch L (some index) q).2.Pairwise
        (fun i j => scoreOf index' j ≤ scoreOf index' i) ∧
      ∀ i j, List.Sublist [i, j] (performSearch L (some index) q).2 →
        scoreOf index' i = scoreOf index' j → i < j := by
  by_cases hq : q = []
  · subst hq
    refine ⟨index, ?_, ?_, ?_, ?_⟩ <;> simp [performSearch_empty]
  · have hmem := fun i => mem_performSearch L (some index) q i
    rw [performSearch_eq L index q hq] at hmem ⊢
    refine ⟨_, rfl, ?_, ?_, ?_⟩
    · intro i hi
      obtain ⟨index0, p, h0, -, -, -, -, -, h2⟩ := hmem i hi
      cases h0
      refine ⟨_, h2, ?_⟩
      simp [scoreOf, h2, scored]
    · exact (rankedCandidates_descending L index q).sublist (List.take_sublist _ _)
    · intro i j hs he
      exact rankedCandidates_stable L index q i j (hs.trans (List.take_sublist _ _)) he

/-- C3, the tie-break example: of three matching posts the second has the highest score
and comes first; the first and the third have equal score and keep their index order. -/
theorem performSearch_descending_stable_witness :
    performSearch asciiLower (some tiePosts) (utf16 "rust") =
      (some (tiePosts.zipWith (fun p s => { p with _score := some s }) [1, 10, 1]), [1, 0, 2]) ∧
    ∃ index', (performSearch asciiLower (some tiePosts) (utf16 "rust")).1 = some index' ∧
      (∀ i ∈ (performSearch asciiLower (some tiePosts) (utf16 "rust")).2,
        ∃ post : Post, index'[i]? = some post ∧ post._score = some (scoreOf index' i)) ∧
      (performSearch asciiLower (some tiePosts) (utf16 "rust")).2.Pairwise
        (fun i j => scoreOf index' j ≤ scoreOf index' i) ∧
      ∀ i j, List.Sublist [i, j] (performSearch asciiLower (some tiePosts) (utf16 "rust")).2 →
        scoreOf index' i = scoreOf index' j → i < j :=
  ⟨by decide, performSearch_descending_stable asciiLower tiePosts (utf16 "rust")⟩

/-- C4: the array returned by `performSearch` never has more than 20 entries; when the
search runs (index loaded, query not the empty string) it is exactly the first 20 entries
of the full ranked candidate list, so its length is the minimum of 20 and the number of
candidates; when the search does not run the result is empty. -/
theorem performSearch_first_20_of_ranked (L : JSString → JSString) (si : Option (List Post))
    (q : JSString) :
    (performSearch L si q).2.length ≤ 20 ∧
    (∀ index, si = some index → q ≠ [] →
      (performSearch L si q).2 = (rankedCandidates L index q).take 20 ∧
      (performSearch L si q).2.length = min 20 (index.countP (matchesEvery L (words L q)))) ∧
    (si = none ∨ q = [] → (performSearch L si q).2 = []) := by
  refine ⟨?_, ?_, ?_⟩
  · cases si with
    | none => simp [performSearch]
    | some index =>
      by_cases hq : q = []
      · simp [performSearch, hq]
      · rw [performSearch_eq L index q hq]
        simp [List.length_take]
  · intro index hsi hq
    subst hsi
    rw [performSearch_eq L index q hq]
    refine ⟨rfl, ?_⟩
    simp [List.length_take, rankedCandidates_length]
  · rintro (h | h)
    · subst h; rfl
    · subst h
      cases si <;> simp [performSearch]

set_option maxRecDepth 100000 in
/-- C4, the truncation example: on an index of 30 matching posts the search returns 20
references, the first 20 of the ranked 30 (the 15 title matches, then the first 5 content
matches in index order). -/
theorem performSearch_first_20_of_ranked_witness :
    thirtyPosts.countP (matchesEvery asciiLower (words asciiLower (utf16 "rust"))) = 30 ∧
    rankedCandidates asciiLower thirtyPosts (utf16 "rust") =
      [15, 16, 17, 18, 19, 20, 21, 22, 23, 24, 25, 26, 27, 28, 29,
        0, 1, 2, 3, 4, 5, 6, 7, 8, 9, 10, 11, 12, 13, 14] ∧
    (performSearch asciiLower (some thirtyPosts) (utf16 "rust")).2 =
      [15, 16, 17, 18, 19, 20, 21, 22, 23, 24, 25, 26, 27, 28, 29, 0, 1, 2, 3, 4] ∧
    (performSearch asciiLower (some thirtyPosts) (utf16 "rust")).2 =
      (rankedCandidates asciiLower thirtyPosts (utf16 "rust")).take 20 ∧
    (performSearch asciiLower (some thirtyPosts) (utf16 "rust")).2.length = min 20 30 := by
  have h := performSearch_first_20_of_ranked asciiLower (some thirtyPosts) (utf16 "rust")
  have hc : thirtyPosts.countP (matchesEvery asciiLower (words asciiLower (utf16 "rust"))) = 30 := by
    decide
  have h2 := h.2.1 thirtyPosts rfl (by decide)
  rw [hc] at h2
  exact ⟨hc, by decide, by decide, h2.1, h2.2⟩

/-- C5, the code at a query made only of white space: the query " " is not the empty
string, so the guard lets it through; it has no token, every post passes the filter, and
the post of the index is returned with score 0. The empty string does return nothing. -/
theorem performSearch_whitespace_query_returns_posts :
    words asciiLower (utf16 " ") = [] ∧
    performSearch asciiLower (some [rustGuide]) (utf16 " ") =
      (some [{ rustGuide with _score := some 0 }], [0]) ∧
    performSearch asciiLower (some [rustGuide]) (utf16 "") = (some [rustGuide], []) := by
  decide

set_option maxRecDepth 100000 in
/-- C6, refuted: on three matching posts the widget returns them in index order, while the
ranked sequence of `performSearch` starts with the title match; on the 30 matching posts
the widget returns the first ten of the index, none of which is among the ten highest
ranked. -/
theorem searchPosts_is_not_ranked :
    searchPosts asciiLower tiePosts (utf16 "rust") = [0, 1, 2] ∧
    (rankedCandidates asciiLower tiePosts (utf16 "rust")).take 10 = [1, 0, 2] ∧
    searchPosts asciiLower tiePosts (utf16 "rust") ≠
      (rankedCandidates asciiLower tiePosts (utf16 "rust")).take 10 ∧
    searchPosts asciiLower thirtyPosts (utf16 "rust") = [0, 1, 2, 3, 4, 5, 6, 7, 8, 9] ∧
    (rankedCandidates asciiLower thirtyPosts (utf16 "rust")).take 10 =
      [15, 16, 17, 18, 19, 20, 21, 22, 23, 24] := by
  refine ⟨by decide, by decide, by decide, by decide, by decide⟩

/-- C6, amended: `searchPosts` returns the first 10, in index order, of the posts that pass
the conjunctive substring test of `performSearch` for the tokens of the query; the ranked
sequence of `performSearch` is a reordering of that same candidate list. -/
theorem searchPosts_first_10_candidates (L : JSString → JSString) (posts : List Post)
    (q : JSString) :
    searchPosts L posts q = (filterRefs posts (matchesEvery L (words L q))).take 10 ∧
    (rankedCandidates L posts q).Perm (filterRefs posts (matchesEvery L (words L q))) := by
  refine ⟨?_, rankedCandidates_perm L posts q⟩
  unfold searchPosts words
  have h : matchesEvery L ((split (L q)).filter fun w => decide (w.length > 0)) =
      matchesEvery L (split (L q)) := funext (matchesEvery_filter L (split (L q)))
  simp only [h]

/-- C7, refuted: after the search for "rust" the record of the index carries a `_score`
that it did not have before the call. -/
theorem performSearch_writes_score_on_index :
    rustGuide._score = none ∧
    (performSearch asciiLower (some [rustGuide]) (utf16 "rust")).1 =
      some [{ rustGuide with _score := some 16 }] ∧
    (performSearch asciiLower (some [rustGuide]) (utf16 "rust")).1 ≠ some [rustGuide] := by
  decide

/-- C7, amended: the call leaves the index with the same length, and its record at every
position with the same title, content, tags, url and date; the `_score` of a record is
overwritten with its score for this query when the query is not the empty string and the
record passes the filter, and is left as it was otherwise. -/
theorem performSearch_index_after_call (L : JSString → JSString) (index : List Post)
    (q : JSString) :
    ∃ index', (performSearch L (some index) q).1 = some index' ∧
      index'.length = index.length ∧
      ∀ (k : Nat) (p : Post), index[k]? = some p →
        ∃ p' : Post, index'[k]? = some p' ∧ p'.title = p.title ∧ p'.content = p.content ∧
          p'.tags = p.tags ∧ p'.url = p.url ∧ p'.date = p.date ∧
          p'._score = if q ≠ [] ∧ matchesEvery L (words L q) p = true
            then some (specScore L (words L q) p) else p._score := by
  by_cases hq : q = []
  · subst hq
    refine ⟨index, by simp [performSearch_empty], rfl, ?_⟩
    intro k p hp
    exact ⟨p, hp, rfl, rfl, rfl, rfl, rfl, by simp⟩
  · rw [performSearch_eq L index q hq]
    refine ⟨_, rfl, scoreResults_length L _ _ _, ?_⟩
    intro k p hp
    rw [scoreResults_getElem?]
    by_cases hm : matchesEvery L (words L q) p = true
    · have hk : k ∈ filterRefs index (matchesEvery L (words L q)) :=
        (mem_filterRefs _ _ _).mpr ⟨p, hp, hm⟩
      refine ⟨scored L (words L q) p, ?_, rfl, rfl, rfl, rfl, rfl, ?_⟩
      · simp [hk, hp]
      · simp [hq, hm, scored, computeScore_eq]
    · have hk : k ∉ filterRefs index (matchesEvery L (words L q)) := by
        intro hk
        obtain ⟨p0, hp0, hm0⟩ := (mem_filterRefs _ _ _).mp hk
        rw [hp] at hp0
        cases hp0
        exact hm hm0
      refine ⟨p, ?_, rfl, rfl, rfl, rfl, rfl, ?_⟩
      · simp [hk, hp]
      · simp [hm]

/-- C8: a rejected fetch leaves the cached index unset, and on an unset index as on an
empty index `performSearch` returns the empty array for every query, touching nothing. -/
theorem performSearch_unavailable_or_empty_index (L : JSString → JSString) (q : JSString) :
    loadSearchIndex none none = none ∧
    performSearch L (loadSearchIndex none none) q = (none, []) ∧
    performSearch L (some []) q = (some [], []) := by
  refine ⟨rfl, rfl, ?_⟩
  by_cases hq : q = []
  · simp [performSearch, hq]
  · simp [performSearch, hq, filterRefs, scoreResults, sort]

/-- C9: adding a token to the tokens of a query can only narrow the candidates of the
filter; and, as lowercasing does not reach across a space, the candidates for the query
string `q` followed by a space and `t` are among the candidates for `q`. -/
theorem candidates_monotone (L : JSString → JSString) (index : List Post) :
    (∀ (ws : List JSString) (t : JSString) (i : Nat),
      i ∈ filterRefs index (matchesEvery L (ws ++ [t])) →
        i ∈ filterRefs index (matchesEvery L ws)) ∧
    (LowerCaseLaws L → ∀ (q t : JSString) (i : Nat),
      i ∈ filterRefs index (matchesEvery L (words L (q ++ 0x20 :: t))) →
        i ∈ filterRefs index (matchesEvery L (words L q))) := by
  have key : ∀ (ws ws' : List JSString) (i : Nat),
      i ∈ filterRefs index (matchesEvery L (ws ++ ws')) →
        i ∈ filterRefs index (matchesEvery L ws) := by
    intro ws ws' i hi
    obtain ⟨p, hp, hm⟩ := (mem_filterRefs _ _ _).mp hi
    refine (mem_filterRefs _ _ _).mpr ⟨p, hp, ?_⟩
    rw [matchesEvery_iff] at hm ⊢
    exact fun w hw => hm w (List.mem_append_left _ hw)
  refine ⟨fun ws t i hi => key ws [t] i hi, ?_⟩
  intro hL q t i hi
  rw [words_append_space L hL] at hi
  exact key _ _ i hi

/-- C9 on the three posts: all three are candidates for "rust", only the second is a
candidate for "rust guide". -/
theorem candidates_monotone_witness :
    LowerCaseLaws asciiLower ∧
    filterRefs tiePosts (matchesEvery asciiLower (words asciiLower (utf16 "rust"))) = [0, 1, 2] ∧
    filterRefs tiePosts
      (matchesEvery asciiLower (words asciiLower (utf16 "rust" ++ 0x20 :: utf16 "guide"))) = [1] ∧
    1 ∈ filterRefs tiePosts (matchesEvery asciiLower (words asciiLower (utf16 "rust"))) :=
  ⟨asciiLower_laws, by decide, by decide,
    (candidates_monotone asciiLower tiePosts).2 asciiLower_laws (utf16 "rust") (utf16 "guide") 1
      (by decide)⟩

/-- C10: for a query with n ≥ 1 tokens, every post returned by `performSearch` carries a
score between n and 16 n, hence a positive one: a token has no space in it, so where it
occurs in the filter text it occurs in the title, in the content or in one tag. -/
theorem performSearch_score_bounds (L : JSString → JSString) (hL : LowerCaseLaws L)
    (si : Option (List Post)) (q : JSString) (hn : 1 ≤ (words L q).length) (i : Nat)
    (hi : i ∈ (performSearch L si q).2) :
    ∃ (index' : List Post) (post : Post) (s : Nat),
      (performSearch L si q).1 = some index' ∧ index'[i]? = some post ∧ post._score = some s ∧
      (words L q).length ≤ s ∧ s ≤ 16 * (words L q).length ∧ 0 < s := by
  obtain ⟨index, p, -, -, -, -, hm, h1, h2⟩ := mem_performSearch L si q i hi
  have hall := (matchesEvery_iff L _ p).mp hm
  have hb := specScore_bounds L p (words L q) (fun w hw =>
    tokenBonus_pos L p w (infix_searchableText L hL w (words_token L q w hw).1
      (words_token L q w hw).2 p (hall w hw)))
  refine ⟨_, _, specScore L (words L q) p, h1, h2, ?_, hb.1, hb.2, by omega⟩
  show some (computeScore L (words L q) p) = some (specScore L (words L q) p)
  rw [computeScore_eq]

/-- C10 on the score example: one token, and the returned post has score 16. -/
theorem performSearch_score_bounds_witness :
    LowerCaseLaws asciiLower ∧ 1 ≤ (words asciiLower (utf16 "rust")).length ∧
    0 ∈ (performSearch asciiLower (some [rustGuide]) (utf16 "rust")).2 ∧
    ∃ (index' : List Post) (post : Post) (s : Nat),
      (performSearch asciiLower (some [rustGuide]) (utf16 "rust")).1 = some index' ∧
      index'[0]? = some post ∧ post._score = some s ∧
      (words asciiLower (utf16 "rust")).length ≤ s ∧
      s ≤ 16 * (words asciiLower (utf16 "rust")).length ∧ 0 < s :=
  ⟨asciiLower_laws, by decide, by decide,
    performSearch_score_bounds asciiLower asciiLower_laws (some [rustGuide]) (utf16 "rust")
      (by decide) 0 (by decide)⟩

end KPGB
